import Mathlib

/-!
Shallow embedding of a five-field schedule-expression parser (`app.py`).

The source has two parts:
* `expand_expression(expression, options)` — expands one field's raw text
  against its ordered domain of valid integers, trying five regex-guarded
  rules in a fixed order (wildcard, range, list, stepped, single value)
  and raising `ValueError` at six distinct sites;
* the schedule model — splits the input on whitespace runs into at least
  six tokens, keeps the first five as raw fields, joins the rest with
  single spaces as the command, and (`CronExpression.__init__`) expands
  the five fields left to right against the fixed domains.

Strings are modelled as `List Char`; the anchored regexes are modelled by
structural matchers built on a separator-splitting function (each regex
here is of the shape "pieces of 1–2 digits separated by one fixed
character", so splitting on that character and checking the pieces is an
exact translation).  Errors are an inductive type with one constructor
per `raise` site, carrying the same data the Python message interpolates.
-/

/-- One constructor per `raise ValueError(...)` site in `app.py`, carrying
the data that the corresponding Python message interpolates. -/
inductive CronError where
  | malformedExpression : CronError
  | invalidRange : List Char → CronError
  | noValidValues : List Int → CronError
  | invalidInterval : List Char → CronError
  | valueNotInDomain : Int → CronError
  | unrecognizedFormat : List Char → CronError
  deriving DecidableEq, Repr

deriving instance DecidableEq for Except

/-- Split a character list at every character satisfying `p`, keeping empty
pieces — the behaviour of Python `str.split(sep)` for a one-character
separator, and the run-splitting core of `str.split()` once empty pieces
are filtered out. -/
def consHead (c : Char) : List (List Char) → List (List Char)
  | [] => [[c]]
  | w :: ws => (c :: w) :: ws

def splitP (p : Char → Bool) : List Char → List (List Char)
  | [] => [[]]
  | c :: rest =>
    if p c then [] :: splitP p rest
    else consHead c (splitP p rest)

/-- The regex fragment `\d{1,2}`: one or two characters, all ASCII digits. -/
def digits12 (s : List Char) : Bool :=
  (decide (s.length = 1) || decide (s.length = 2)) && s.all (fun c => c.isDigit)

/-- Python `int(...)` on a string of digits. -/
def parseNatDigits (s : List Char) : Nat :=
  s.foldl (fun a c => a * 10 + (c.toNat - 48)) 0

/-- Helper for `matchRange`: the range pattern matches exactly when the
dash-split has exactly two pieces, each 1–2 digits. -/
def rangeOfParts : List (List Char) → Option (Int × Int)
  | [a, b] =>
    if digits12 a && digits12 b then
      some ((parseNatDigits a : Int), (parseNatDigits b : Int))
    else none
  | _ => none

/-- The regex `^(\d{1,2})-(\d{1,2})$` (`app.py` line 121): exactly one dash
with 1–2 digits on each side; on success the two parsed integers. -/
def matchRange (s : List Char) : Option (Int × Int) :=
  rangeOfParts (splitP (fun c => c = '-') s)

/-- The regex `^\d{1,2}(?:,\d{1,2})*$` (`app.py` line 128): every
comma-separated piece is 1–2 digits.  Note the `*` quantifier: a bare 1–2
digit integer with no comma also matches this pattern. -/
def isListExpr (s : List Char) : Bool :=
  (splitP (fun c => c = ',') s).all digits12

/-- `[int(x) for x in expression.split(",")]` (`app.py` line 129). -/
def parseListVals (s : List Char) : List Int :=
  (splitP (fun c => c = ',') s).map (fun w => (parseNatDigits w : Int))

/-- Helper for `matchStepped`: the stepped pattern matches exactly when the
slash-split has exactly two pieces, the first `*` or a range pattern, the
second 1–2 digits. -/
def steppedOfParts : List (List Char) → Option (List Char × Nat)
  | [b, st] =>
    if (b == ['*'] || (matchRange b).isSome) && digits12 st then
      some (b, parseNatDigits st)
    else none
  | _ => none

/-- The regex `^(\*|\d{1,2}-\d{1,2})/(\d{1,2})$` (`app.py` line 137):
exactly one slash, the part before it either `*` or a range pattern, the
part after it 1–2 digits (the step). -/
def matchStepped (s : List Char) : Option (List Char × Nat) :=
  steppedOfParts (splitP (fun c => c = '/') s)

/-- `[x for x in new_options if (x - new_options[0]) % interval == 0]`
(`app.py` line 147).  Python evaluates `new_options[0]` lazily, once per
element, so the comprehension is `[]` on an empty list rather than an
index error; the `match` reproduces that.  Lean's `%` on `Int` agrees with
Python's `%` for a positive modulus. -/
def stepFilter (c : List Int) (interval : Nat) : List Int :=
  match c with
  | [] => []
  | c0 :: rest => (c0 :: rest).filter (fun x => decide ((x - c0) % (interval : Int) = 0))

/-- `expand_expression` (`app.py` lines 115–157) with explicit fuel for the
single recursive call in the stepped rule.  The rules are tried in source
order: wildcard, range, list, stepped, single value, unrecognized.  The
recursive call is only ever made on the stepped rule's base, which is `*`
or a range and therefore never itself matches the stepped rule, so fuel 1
(see `expand_expression`) never exhausts and the fuel-0 fallback is dead
code (`expandAux_fuel_eq` makes this irrelevance precise). -/
def expandAux (fuel : Nat) (s : List Char) (options : List Int) :
    Except CronError (List Int) :=
  if s = ['*'] then
    Except.ok options
  else
    match matchRange s with
    | some (a, b) =>
      if a > b then Except.error (CronError.invalidRange s)
      else Except.ok (options.filter (fun x => decide (a ≤ x ∧ x ≤ b)))
    | none =>
      if isListExpr s then
        let values := parseListVals s
        let resVal := values.filter (fun x => decide (x ∈ options))
        if resVal = [] then Except.error (CronError.noValidValues values)
        else Except.ok resVal
      else
        match matchStepped s with
        | some (base, interval) =>
          if interval = 0 then Except.error (CronError.invalidInterval s)
          else
            match fuel with
            | 0 => Except.error (CronError.unrecognizedFormat s)
            | f + 1 =>
              match expandAux f base options with
              | Except.error e => Except.error e
              | Except.ok c => Except.ok (stepFilter c interval)
        | none =>
          if digits12 s then
            let value : Int := (parseNatDigits s : Int)
            if value ∈ options then Except.ok [value]
            else Except.error (CronError.valueNotInDomain value)
          else Except.error (CronError.unrecognizedFormat s)

/-- `expand_expression(expression, options)`: fuel 1 suffices because the
stepped rule's base never matches the stepped rule again. -/
def expand_expression (s : List Char) (options : List Int) :
    Except CronError (List Int) :=
  expandAux 1 s options

/-- The five raw tokens plus the space-joined command stored by
`AbstractCronExpression.__init__` (`app.py` lines 9–19). -/
structure CronFields where
  rawMinute : List Char
  rawHour : List Char
  rawDayOfMonth : List Char
  rawMonth : List Char
  rawDayOfWeek : List Char
  command : List Char
  deriving DecidableEq, Repr

/-- The expanded schedule built by `CronExpression.__init__`
(`app.py` lines 85–92). -/
structure CronSchedule where
  minute : List Int
  hour : List Int
  dayOfMonth : List Int
  month : List Int
  dayOfWeek : List Int
  command : List Char
  deriving DecidableEq, Repr

/-- Python `" ".join(...)` on a list of token strings. -/
def joinSpace : List (List Char) → List Char
  | [] => []
  | [w] => w
  | w :: x :: rest => w ++ ' ' :: joinSpace (x :: rest)

/-- Python `str.split()`: split on whitespace runs, dropping empty pieces. -/
def wsplit (s : List Char) : List (List Char) :=
  (splitP (fun c => c.isWhitespace) s).filter (fun w => w ≠ [])

/-- `AbstractCronExpression.__init__` (`app.py` lines 9–19): at least six
whitespace-separated tokens, the first five stored verbatim, the remainder
space-joined as the command. -/
def mkCronFields (expression : List Char) : Except CronError CronFields :=
  match wsplit expression with
  | p0 :: p1 :: p2 :: p3 :: p4 :: p5 :: rest =>
    Except.ok ⟨p0, p1, p2, p3, p4, joinSpace (p5 :: rest)⟩
  | _ => Except.error CronError.malformedExpression

/-- `list(range(60))`. -/
def minuteDomain : List Int := (List.range 60).map (fun n => (n : Int))

/-- `list(range(24))`. -/
def hourDomain : List Int := (List.range 24).map (fun n => (n : Int))

/-- `list(range(1, 32))`. -/
def dayOfMonthDomain : List Int := (List.range 31).map (fun n => (n : Int) + 1)

/-- `list(range(1, 13))`. -/
def monthDomain : List Int := (List.range 12).map (fun n => (n : Int) + 1)

/-- `list(range(1, 8))`. -/
def dayOfWeekDomain : List Int := (List.range 7).map (fun n => (n : Int) + 1)

/-- `CronExpression.__init__` (`app.py` lines 85–92): parse the tokens, then
expand the five fields in source order — minute, hour, day of month, month,
day of week — each against its fixed domain, stopping at the first error. -/
def mkCronExpression (expression : List Char) : Except CronError CronSchedule :=
  match mkCronFields expression with
  | Except.error e => Except.error e
  | Except.ok f =>
    match expand_expression f.rawMinute minuteDomain with
    | Except.error e => Except.error e
    | Except.ok m =>
      match expand_expression f.rawHour hourDomain with
      | Except.error e => Except.error e
      | Except.ok h =>
        match expand_expression f.rawDayOfMonth dayOfMonthDomain with
        | Except.error e => Except.error e
        | Except.ok dm =>
          match expand_expression f.rawMonth monthDomain with
          | Except.error e => Except.error e
          | Except.ok mo =>
            match expand_expression f.rawDayOfWeek dayOfWeekDomain with
            | Except.error e => Except.error e
            | Except.ok dw => Except.ok ⟨m, h, dm, mo, dw, f.command⟩

/-- `RawCronExpression.expand` (`app.py` lines 77–80): rebuild the
expression with single spaces between the six stored pieces and re-parse
it as an expanded schedule. -/
def rawExpand (f : CronFields) : Except CronError CronSchedule :=
  mkCronExpression
    (joinSpace [f.rawMinute, f.rawHour, f.rawDayOfMonth, f.rawMonth,
                f.rawDayOfWeek, f.command])

/-! ### Structure of `splitP` -/

theorem consHead_ne_nil (c : Char) (l : List (List Char)) : consHead c l ≠ [] := by
  cases l <;> simp [consHead]

theorem splitP_ne_nil (p : Char → Bool) : ∀ s : List Char, splitP p s ≠ [] := by
  intro s
  induction s with
  | nil => simp [splitP]
  | cons c rest ih =>
    rw [splitP]
    by_cases hp : p c = true
    · rw [if_pos hp]; simp
    · rw [if_neg hp]; exact consHead_ne_nil c _

theorem splitP_sep_not_mem (p : Char → Bool) :
    ∀ s : List Char, ∀ w ∈ splitP p s, ∀ c ∈ w, p c = false := by
  intro s
  induction s with
  | nil =>
    intro w hw c hc
    simp only [splitP, List.mem_singleton] at hw
    subst hw
    simp at hc
  | cons a rest ih =>
    intro w hw c hc
    rw [splitP] at hw
    by_cases hp : p a = true
    · rw [if_pos hp] at hw
      rcases List.mem_cons.mp hw with hw | hw
      · subst hw; simp at hc
      · exact ih w hw c hc
    · rw [if_neg hp] at hw
      rcases h : splitP p rest with _ | ⟨w0, ws⟩
      · exact absurd h (splitP_ne_nil p rest)
      · rw [h, consHead] at hw
        rcases List.mem_cons.mp hw with hw | hw
        · subst hw
          rcases List.mem_cons.mp hc with hc | hc
          · subst hc; exact Bool.eq_false_iff.mpr hp
          · exact ih w0 (h ▸ List.mem_cons_self w0 ws) c hc
        · exact ih w (h ▸ List.mem_cons_of_mem w0 hw) c hc

theorem splitP_eq_single (p : Char → Bool) :
    ∀ s w : List Char, splitP p s = [w] → s = w := by
  intro s
  induction s with
  | nil =>
    intro w h
    simp only [splitP] at h
    injection h
  | cons x rest ih =>
    intro w h
    rw [splitP] at h
    by_cases hp : p x = true
    · rw [if_pos hp] at h
      injection h with h1 h2
      exact absurd h2 (splitP_ne_nil p rest)
    · rw [if_neg hp] at h
      rcases hs : splitP p rest with _ | ⟨w0, ws⟩
      · exact absurd hs (splitP_ne_nil p rest)
      · rw [hs, consHead] at h
        injection h with h1 h2
        subst h2
        rw [← h1, ih w0 hs]

theorem splitP_eq_pair (p : Char → Bool) :
    ∀ s a b : List Char, splitP p s = [a, b] →
      ∃ c, p c = true ∧ s = a ++ c :: b := by
  intro s
  induction s with
  | nil => intro a b h; simp [splitP] at h
  | cons x rest ih =>
    intro a b h
    rw [splitP] at h
    by_cases hp : p x = true
    · rw [if_pos hp] at h
      injection h with h1 h2
      have hrest : rest = b := splitP_eq_single p rest b h2
      exact ⟨x, hp, by rw [← h1, hrest]; rfl⟩
    · rw [if_neg hp] at h
      rcases hs : splitP p rest with _ | ⟨w0, ws⟩
      · exact absurd hs (splitP_ne_nil p rest)
      · rw [hs, consHead] at h
        injection h with h1 h2
        subst h2
        obtain ⟨c, hc, hrest⟩ := ih w0 b hs
        exact ⟨c, hc, by rw [← h1, hrest]; rfl⟩

theorem splitP_no_sep (p : Char → Bool) :
    ∀ s : List Char, (∀ c ∈ s, p c = false) → splitP p s = [s] := by
  intro s
  induction s with
  | nil => intro _; rfl
  | cons x rest ih =>
    intro h
    have hx : p x = false := h x (List.mem_cons_self x rest)
    have hr := ih (fun c hc => h c (List.mem_cons_of_mem x hc))
    rw [splitP, if_neg (by simp [hx]), hr, consHead]

theorem splitP_append_sep (p : Char → Bool) (d : Char) (hd : p d = true) :
    ∀ a s : List Char, (∀ c ∈ a, p c = false) →
      splitP p (a ++ d :: s) = a :: splitP p s := by
  intro a
  induction a with
  | nil => intro s _; rw [List.nil_append, splitP, if_pos hd]
  | cons x a' ih =>
    intro s h
    have hx : p x = false := h x (List.mem_cons_self x a')
    have hr := ih s (fun c hc => h c (List.mem_cons_of_mem x hc))
    rw [List.cons_append, splitP, if_neg (by simp [hx]), hr, consHead]

theorem mem_splitP_cover (p : Char → Bool) :
    ∀ s : List Char, ∀ c ∈ s, p c = true ∨ ∃ w ∈ splitP p s, c ∈ w := by
  intro s
  induction s with
  | nil => intro c hc; simp at hc
  | cons x rest ih =>
    intro c hc
    rcases List.mem_cons.mp hc with hc | hc
    · subst hc
      by_cases hp : p c = true
      · exact Or.inl hp
      · refine Or.inr ?_
        rw [splitP, if_neg hp]
        rcases hs : splitP p rest with _ | ⟨w0, ws⟩
        · exact ⟨[c], by simp [consHead]⟩
        · exact ⟨c :: w0, by simp [consHead]⟩
    · rcases ih c hc with h | ⟨w, hw, hcw⟩
      · exact Or.inl h
      · refine Or.inr ?_
        rw [splitP]
        by_cases hp : p x = true
        · rw [if_pos hp]
          exact ⟨w, List.mem_cons_of_mem _ hw, hcw⟩
        · rw [if_neg hp]
          rcases hs : splitP p rest with _ | ⟨w0, ws⟩
          · exact absurd hs (splitP_ne_nil p rest)
          · simp only [consHead]
            rw [hs] at hw
            rcases List.mem_cons.mp hw with hw | hw
            · exact ⟨x :: w0, List.mem_cons_self _ _, hw ▸ List.mem_cons_of_mem x hcw⟩
            · exact ⟨w, List.mem_cons_of_mem _ hw, hcw⟩

/-! ### Character-level facts about the matchers -/

theorem digits12_mem_isDigit {w : List Char} (h : digits12 w = true) :
    ∀ c ∈ w, c.isDigit = true := by
  intro c hc
  unfold digits12 at h
  rw [Bool.and_eq_true, List.all_eq_true] at h
  exact h.2 c hc

theorem digits12_ne_star {w : List Char} (h : digits12 w = true) : w ≠ ['*'] := by
  intro he
  rw [he] at h
  exact absurd h (by decide)

theorem matchRange_pair {s : List Char} {a b : Int}
    (h : matchRange s = some (a, b)) :
    ∃ x y, digits12 x = true ∧ digits12 y = true ∧ s = x ++ '-' :: y ∧
      a = (parseNatDigits x : Int) ∧ b = (parseNatDigits y : Int) := by
  unfold matchRange at h
  rcases hs : splitP (fun c => c = '-') s with _ | ⟨x, _ | ⟨y, _ | ⟨z, zs⟩⟩⟩
  · rw [hs] at h; simp [rangeOfParts] at h
  · rw [hs] at h; simp [rangeOfParts] at h
  · rw [hs] at h
    simp only [rangeOfParts] at h
    by_cases hd : (digits12 x && digits12 y) = true
    · rw [if_pos hd] at h
      injection h with h1
      injection h1 with ha hb
      rw [Bool.and_eq_true] at hd
      obtain ⟨d, hdp, hsplit⟩ := splitP_eq_pair _ s x y hs
      have : d = '-' := by simpa using hdp
      exact ⟨x, y, hd.1, hd.2, this ▸ hsplit, ha.symm, hb.symm⟩
    · rw [if_neg hd] at h
      exact absurd h (by simp)
  · rw [hs] at h; simp [rangeOfParts] at h

theorem matchRange_chars {s : List Char} {a b : Int}
    (h : matchRange s = some (a, b)) :
    ∀ c ∈ s, c.isDigit = true ∨ c = '-' := by
  obtain ⟨x, y, hx, hy, hsplit, _, _⟩ := matchRange_pair h
  intro c hc
  rw [hsplit] at hc
  rcases List.mem_append.mp hc with hc | hc
  · exact Or.inl (digits12_mem_isDigit hx c hc)
  · rcases List.mem_cons.mp hc with hc | hc
    · exact Or.inr hc
    · exact Or.inl (digits12_mem_isDigit hy c hc)

theorem matchRange_dash_mem {s : List Char} {a b : Int}
    (h : matchRange s = some (a, b)) : '-' ∈ s := by
  obtain ⟨x, y, _, _, hsplit, _, _⟩ := matchRange_pair h
  rw [hsplit]
  exact List.mem_append.mpr (Or.inr (List.mem_cons_self _ _))

theorem matchRange_eq_none {s : List Char} {c : Char} (hc : c ∈ s)
    (h1 : c.isDigit = false) (h2 : c ≠ '-') : matchRange s = none := by
  cases hm : matchRange s with
  | none => rfl
  | some ab =>
    obtain ⟨a, b⟩ := ab
    rcases matchRange_chars hm c hc with hd | hd
    · rw [h1] at hd; exact absurd hd (by decide)
    · exact absurd hd h2

theorem matchRange_ne_star {s : List Char} {a b : Int}
    (h : matchRange s = some (a, b)) : s ≠ ['*'] := by
  intro he
  have := matchRange_dash_mem h
  rw [he] at this
  simp at this

theorem isListExpr_chars {s : List Char} (h : isListExpr s = true) :
    ∀ c ∈ s, c.isDigit = true ∨ c = ',' := by
  intro c hc
  rcases mem_splitP_cover (fun c => c = ',') s c hc with hp | ⟨w, hw, hcw⟩
  · exact Or.inr (by simpa using hp)
  · unfold isListExpr at h
    rw [List.all_eq_true] at h
    exact Or.inl (digits12_mem_isDigit (h w hw) c hcw)

theorem isListExpr_ne_star {s : List Char} (h : isListExpr s = true) :
    s ≠ ['*'] := by
  intro he
  rw [he] at h
  exact absurd h (by decide)

theorem isListExpr_matchRange_none {s : List Char} (h : isListExpr s = true) :
    matchRange s = none := by
  cases hm : matchRange s with
  | none => rfl
  | some ab =>
    obtain ⟨a, b⟩ := ab
    rcases isListExpr_chars h '-' (matchRange_dash_mem hm) with hd | hd
    · exact absurd hd (by decide)
    · exact absurd hd (by decide)

theorem isListExpr_eq_false {s : List Char} {c : Char} (hc : c ∈ s)
    (h1 : c.isDigit = false) (h2 : c ≠ ',') : isListExpr s = false := by
  cases hl : isListExpr s with
  | false => rfl
  | true =>
    rcases isListExpr_chars hl c hc with hd | hd
    · rw [h1] at hd; exact absurd hd (by decide)
    · exact absurd hd h2

theorem splitP_comma_no_comma {s : List Char} (h : ',' ∉ s) :
    splitP (fun c => c = ',') s = [s] :=
  splitP_no_sep _ s (fun _ hc => decide_eq_false (fun he => h (he ▸ hc)))

theorem parseListVals_no_comma {s : List Char} (h : ',' ∉ s) :
    parseListVals s = [(parseNatDigits s : Int)] := by
  unfold parseListVals
  rw [splitP_comma_no_comma h]
  rfl

theorem isListExpr_no_comma {s : List Char} (h : ',' ∉ s) :
    isListExpr s = digits12 s := by
  unfold isListExpr
  rw [splitP_comma_no_comma h]
  simp

theorem digits12_matchRange_none {s : List Char} (h : digits12 s = true) :
    matchRange s = none := by
  cases hm : matchRange s with
  | none => rfl
  | some ab =>
    obtain ⟨a, b⟩ := ab
    have := digits12_mem_isDigit h '-' (matchRange_dash_mem hm)
    exact absurd this (by decide)

theorem digits12_no_comma {s : List Char} (h : digits12 s = true) : ',' ∉ s := by
  intro hc
  have := digits12_mem_isDigit h ',' hc
  exact absurd this (by decide)

theorem matchStepped_struct {s base : List Char} {k : Nat}
    (h : matchStepped s = some (base, k)) :
    (base = ['*'] ∨ (matchRange base).isSome = true) ∧
      ∃ st, digits12 st = true ∧ k = parseNatDigits st ∧ s = base ++ '/' :: st := by
  unfold matchStepped at h
  rcases hs : splitP (fun c => c = '/') s with _ | ⟨b, _ | ⟨st, _ | ⟨z, zs⟩⟩⟩
  · rw [hs] at h; simp [steppedOfParts] at h
  · rw [hs] at h; simp [steppedOfParts] at h
  · rw [hs] at h
    simp only [steppedOfParts] at h
    by_cases hcond : ((b == ['*'] || (matchRange b).isSome) && digits12 st) = true
    · rw [if_pos hcond] at h
      injection h with h1
      injection h1 with hb hk
      rw [Bool.and_eq_true, Bool.or_eq_true, beq_iff_eq] at hcond
      obtain ⟨d, hdp, hsplit⟩ := splitP_eq_pair _ s b st hs
      have hd : d = '/' := by simpa using hdp
      subst hb
      exact ⟨hcond.1, st, hcond.2, hk.symm, hd ▸ hsplit⟩
    · rw [if_neg hcond] at h
      exact absurd h (by simp)
  · rw [hs] at h; simp [steppedOfParts] at h

theorem matchStepped_slash_mem {s base : List Char} {k : Nat}
    (h : matchStepped s = some (base, k)) : '/' ∈ s := by
  obtain ⟨_, st, _, _, hsplit⟩ := matchStepped_struct h
  rw [hsplit]
  exact List.mem_append.mpr (Or.inr (List.mem_cons_self _ _))

theorem matchStepped_ne_star {s base : List Char} {k : Nat}
    (h : matchStepped s = some (base, k)) : s ≠ ['*'] := by
  intro he
  have := matchStepped_slash_mem h
  rw [he] at this
  simp at this

theorem matchStepped_matchRange_none {s base : List Char} {k : Nat}
    (h : matchStepped s = some (base, k)) : matchRange s = none :=
  matchRange_eq_none (matchStepped_slash_mem h) (by decide) (by decide)

theorem matchStepped_isList_false {s base : List Char} {k : Nat}
    (h : matchStepped s = some (base, k)) : isListExpr s = false :=
  isListExpr_eq_false (matchStepped_slash_mem h) (by decide) (by decide)

theorem matchStepped_eq_none_of_no_slash {s : List Char} (h : '/' ∉ s) :
    matchStepped s = none := by
  unfold matchStepped
  have hsp : splitP (fun c => c = '/') s = [s] :=
    splitP_no_sep _ s (fun c hc => decide_eq_false (fun he => h (he ▸ hc)))
  rw [hsp]
  simp [steppedOfParts]

theorem matchStepped_base_none {s base : List Char} {k : Nat}
    (h : matchStepped s = some (base, k)) : matchStepped base = none := by
  obtain ⟨hb, _⟩ := matchStepped_struct h
  rcases hb with hb | hb
  · subst hb; decide
  · obtain ⟨ab, hab⟩ := Option.isSome_iff_exists.mp hb
    obtain ⟨a, b⟩ := ab
    apply matchStepped_eq_none_of_no_slash
    intro hmem
    rcases matchRange_chars hab '/' hmem with hd | hd
    · exact absurd hd (by decide)
    · exact absurd hd (by decide)

theorem matchStepped_base_no_comma {s base : List Char} {k : Nat}
    (h : matchStepped s = some (base, k)) : ',' ∉ base := by
  obtain ⟨hb, _⟩ := matchStepped_struct h
  intro hmem
  rcases hb with hb | hb
  · rw [hb] at hmem; simp at hmem
  · obtain ⟨ab, hab⟩ := Option.isSome_iff_exists.mp hb
    obtain ⟨a, b⟩ := ab
    rcases matchRange_chars hab ',' hmem with hd | hd
    · exact absurd hd (by decide)
    · exact absurd hd (by decide)

/-! ### Branch equations for `expandAux` -/

theorem expandAux_star (fuel : Nat) (D : List Int) :
    expandAux fuel ['*'] D = Except.ok D := by
  unfold expandAux
  rw [if_pos rfl]

theorem expandAux_range (fuel : Nat) (s : List Char) (D : List Int) (a b : Int)
    (hs : s ≠ ['*']) (hr : matchRange s = some (a, b)) :
    expandAux fuel s D =
      (if a > b then Except.error (CronError.invalidRange s)
       else Except.ok (D.filter (fun x => decide (a ≤ x ∧ x ≤ b)))) := by
  unfold expandAux
  rw [if_neg hs, hr]

theorem expandAux_list (fuel : Nat) (s : List Char) (D : List Int)
    (hs : s ≠ ['*']) (hr : matchRange s = none) (hl : isListExpr s = true) :
    expandAux fuel s D =
      (if (parseListVals s).filter (fun x => decide (x ∈ D)) = []
       then Except.error (CronError.noValidValues (parseListVals s))
       else Except.ok ((parseListVals s).filter (fun x => decide (x ∈ D)))) := by
  unfold expandAux
  rw [if_neg hs, hr, if_pos hl]

theorem expandAux_stepped (f : Nat) (s base : List Char) (D : List Int) (k : Nat)
    (hs : s ≠ ['*']) (hr : matchRange s = none) (hl : isListExpr s = false)
    (hm : matchStepped s = some (base, k)) :
    expandAux (f + 1) s D =
      (if k = 0 then Except.error (CronError.invalidInterval s)
       else
         match expandAux f base D with
         | Except.error e => Except.error e
         | Except.ok c => Except.ok (stepFilter c k)) := by
  conv_lhs => unfold expandAux
  rw [if_neg hs, hr, if_neg (by simp [hl]), hm]

theorem expandAux_stepped_zero (s base : List Char) (D : List Int) (k : Nat)
    (hs : s ≠ ['*']) (hr : matchRange s = none) (hl : isListExpr s = false)
    (hm : matchStepped s = some (base, k)) :
    expandAux 0 s D =
      (if k = 0 then Except.error (CronError.invalidInterval s)
       else Except.error (CronError.unrecognizedFormat s)) := by
  unfold expandAux
  rw [if_neg hs, hr, if_neg (by simp [hl]), hm]

theorem expandAux_single (fuel : Nat) (s : List Char) (D : List Int)
    (hs : s ≠ ['*']) (hr : matchRange s = none) (hl : isListExpr s = false)
    (hm : matchStepped s = none) (hd : digits12 s = true) :
    expandAux fuel s D =
      (if (parseNatDigits s : Int) ∈ D then Except.ok [(parseNatDigits s : Int)]
       else Except.error (CronError.valueNotInDomain (parseNatDigits s))) := by
  unfold expandAux
  rw [if_neg hs, hr, if_neg (by simp [hl]), hm, if_pos hd]

theorem expandAux_unrecognized (fuel : Nat) (s : List Char) (D : List Int)
    (hs : s ≠ ['*']) (hr : matchRange s = none) (hl : isListExpr s = false)
    (hm : matchStepped s = none) (hd : digits12 s = false) :
    expandAux fuel s D = Except.error (CronError.unrecognizedFormat s) := by
  unfold expandAux
  rw [if_neg hs, hr, if_neg (by simp [hl]), hm, if_neg (by simp [hd])]

/-- The fuel parameter is irrelevant on any input that does not take the
stepped branch; in particular the stepped rule's base never consumes
fuel, so `expand_expression`'s fuel of 1 is always sufficient. -/
theorem expandAux_fuel_eq (f g : Nat) (s : List Char) (D : List Int)
    (hm : matchStepped s = none) : expandAux f s D = expandAux g s D := by
  by_cases hs : s = ['*']
  · subst hs; rw [expandAux_star, expandAux_star]
  · rcases hr : matchRange s with _ | ⟨a, b⟩
    · by_cases hl : isListExpr s = true
      · rw [expandAux_list f s D hs hr hl, expandAux_list g s D hs hr hl]
      · have hl' : isListExpr s = false := Bool.eq_false_iff.mpr hl
        by_cases hd : digits12 s = true
        · rw [expandAux_single f s D hs hr hl' hm hd,
              expandAux_single g s D hs hr hl' hm hd]
        · have hd' : digits12 s = false := Bool.eq_false_iff.mpr hd
          rw [expandAux_unrecognized f s D hs hr hl' hm hd',
              expandAux_unrecognized g s D hs hr hl' hm hd']
    · rw [expandAux_range f s D a b hs hr, expandAux_range g s D a b hs hr]

theorem stepFilter_sublist (c : List Int) (k : Nat) :
    (stepFilter c k).Sublist c := by
  cases c with
  | nil => simp [stepFilter]
  | cons c0 rest =>
    simp only [stepFilter]
    exact List.filter_sublist _

theorem stepFilter_mem {c : List Int} {k : Nat} {x : Int}
    (h : x ∈ stepFilter c k) : x ∈ c :=
  (stepFilter_sublist c k).subset h

/-- Inversion: the five ways `expandAux` can succeed, one per grammar rule. -/
theorem expandAux_ok_inv (fuel : Nat) (s : List Char) (D r : List Int)
    (h : expandAux fuel s D = Except.ok r) :
    (s = ['*'] ∧ r = D) ∨
    (∃ a b, matchRange s = some (a, b) ∧ a ≤ b ∧
      r = D.filter (fun x => decide (a ≤ x ∧ x ≤ b))) ∨
    (isListExpr s = true ∧ r = (parseListVals s).filter (fun x => decide (x ∈ D))) ∨
    (∃ base k f c, fuel = f + 1 ∧ matchStepped s = some (base, k) ∧
      expandAux f base D = Except.ok c ∧ r = stepFilter c k) ∨
    (digits12 s = true ∧ r = [(parseNatDigits s : Int)] ∧
      (parseNatDigits s : Int) ∈ D) := by
  by_cases hs : s = ['*']
  · subst hs
    rw [expandAux_star] at h
    injection h with h1
    exact Or.inl ⟨rfl, h1.symm⟩
  · rcases hr : matchRange s with _ | ⟨a, b⟩
    · by_cases hl : isListExpr s = true
      · rw [expandAux_list fuel s D hs hr hl] at h
        by_cases he : (parseListVals s).filter (fun x => decide (x ∈ D)) = []
        · rw [if_pos he] at h; exact absurd h (by simp)
        · rw [if_neg he] at h
          injection h with h1
          exact Or.inr (Or.inr (Or.inl ⟨hl, h1.symm⟩))
      · have hl' : isListExpr s = false := Bool.eq_false_iff.mpr hl
        rcases hm : matchStepped s with _ | ⟨base, k⟩
        · by_cases hd : digits12 s = true
          · rw [expandAux_single fuel s D hs hr hl' hm hd] at h
            by_cases hv : (parseNatDigits s : Int) ∈ D
            · rw [if_pos hv] at h
              injection h with h1
              exact Or.inr (Or.inr (Or.inr (Or.inr ⟨hd, h1.symm, hv⟩)))
            · rw [if_neg hv] at h; exact absurd h (by simp)
          · have hd' : digits12 s = false := Bool.eq_false_iff.mpr hd
            rw [expandAux_unrecognized fuel s D hs hr hl' hm hd'] at h
            exact absurd h (by simp)
        · rcases fuel with _ | f
          · rw [expandAux_stepped_zero s base D k hs hr hl' hm] at h
            by_cases hk : k = 0
            · rw [if_pos hk] at h; exact absurd h (by simp)
            · rw [if_neg hk] at h; exact absurd h (by simp)
          · rw [expandAux_stepped f s base D k hs hr hl' hm] at h
            by_cases hk : k = 0
            · rw [if_pos hk] at h; exact absurd h (by simp)
            · rw [if_neg hk] at h
              rcases hC : expandAux f base D with e | C
              · rw [hC] at h; exact absurd h (by simp)
              · rw [hC] at h
                injection h with h1
                exact Or.inr (Or.inr (Or.inr (Or.inl
                  ⟨base, k, f, C, rfl, rfl, hC, h1.symm⟩)))
    · rw [expandAux_range fuel s D a b hs hr] at h
      by_cases hab : a > b
      · rw [if_pos hab] at h; exact absurd h (by simp)
      · rw [if_neg hab] at h
        injection h with h1
        exact Or.inr (Or.inl ⟨a, b, rfl, not_lt.mp hab, h1.symm⟩)

theorem expandAux_mem :
    ∀ (fuel : Nat) (s : List Char) (D r : List Int),
      expandAux fuel s D = Except.ok r → ∀ x ∈ r, x ∈ D := by
  intro fuel
  induction fuel with
  | zero =>
    intro s D r h x hx
    rcases expandAux_ok_inv 0 s D r h with
      ⟨_, rfl⟩ | ⟨a, b, _, _, rfl⟩ | ⟨_, rfl⟩ | ⟨_, _, f, _, hf, _⟩ | ⟨_, rfl, hv⟩
    · exact hx
    · exact (List.mem_filter.mp hx).1
    · simpa using (List.mem_filter.mp hx).2
    · exact absurd hf (by omega)
    · rw [List.mem_singleton.mp hx]; exact hv
  | succ f ih =>
    intro s D r h x hx
    rcases expandAux_ok_inv (f + 1) s D r h with
      ⟨_, rfl⟩ | ⟨a, b, _, _, rfl⟩ | ⟨_, rfl⟩ | ⟨base, k, f', c, hf, _, hC, rfl⟩ |
      ⟨_, rfl, hv⟩
    · exact hx
    · exact (List.mem_filter.mp hx).1
    · simpa using (List.mem_filter.mp hx).2
    · have hff : f' = f := by omega
      subst hff
      exact ih base D c hC x (stepFilter_mem hx)
    · rw [List.mem_singleton.mp hx]; exact hv

theorem expandAux_sublist :
    ∀ (fuel : Nat) (s : List Char) (D r : List Int), ',' ∉ s →
      expandAux fuel s D = Except.ok r → r.Sublist D := by
  intro fuel
  induction fuel with
  | zero =>
    intro s D r hc h
    rcases expandAux_ok_inv 0 s D r h with
      ⟨_, rfl⟩ | ⟨a, b, _, _, rfl⟩ | ⟨_, rfl⟩ | ⟨_, _, f, _, hf, _⟩ | ⟨_, rfl, hv⟩
    · exact List.Sublist.refl _
    · exact List.filter_sublist _
    · by_cases hv : (parseNatDigits s : Int) ∈ D
      · have hf1 : List.filter (fun x => decide (x ∈ D))
            [(parseNatDigits s : Int)] = [(parseNatDigits s : Int)] := by simp [hv]
        rw [parseListVals_no_comma hc, hf1]
        exact List.singleton_sublist.mpr hv
      · have hf1 : List.filter (fun x => decide (x ∈ D))
            [(parseNatDigits s : Int)] = [] := by simp [hv]
        rw [parseListVals_no_comma hc, hf1]
        exact List.nil_sublist _
    · exact absurd hf (by omega)
    · exact List.singleton_sublist.mpr hv
  | succ f ih =>
    intro s D r hc h
    rcases expandAux_ok_inv (f + 1) s D r h with
      ⟨_, rfl⟩ | ⟨a, b, _, _, rfl⟩ | ⟨_, rfl⟩ | ⟨base, k, f', c, hf, hm, hC, rfl⟩ |
      ⟨_, rfl, hv⟩
    · exact List.Sublist.refl _
    · exact List.filter_sublist _
    · by_cases hv : (parseNatDigits s : Int) ∈ D
      · have hf1 : List.filter (fun x => decide (x ∈ D))
            [(parseNatDigits s : Int)] = [(parseNatDigits s : Int)] := by simp [hv]
        rw [parseListVals_no_comma hc, hf1]
        exact List.singleton_sublist.mpr hv
      · have hf1 : List.filter (fun x => decide (x ∈ D))
            [(parseNatDigits s : Int)] = [] := by simp [hv]
        rw [parseListVals_no_comma hc, hf1]
        exact List.nil_sublist _
    · have hff : f' = f := by omega
      subst hff
      exact (stepFilter_sublist c k).trans
        (ih base D c (matchStepped_base_no_comma hm) hC)
    · exact List.singleton_sublist.mpr hv

/-! ### Whitespace splitting and rejoining -/

theorem wsplit_mem_ne_nil {s w : List Char} (h : w ∈ wsplit s) : w ≠ [] := by
  unfold wsplit at h
  simpa using (List.mem_filter.mp h).2

theorem wsplit_mem_no_ws {s w : List Char} (h : w ∈ wsplit s) :
    ∀ c ∈ w, c.isWhitespace = false := by
  unfold wsplit at h
  have := splitP_sep_not_mem _ s w (List.mem_filter.mp h).1
  simpa using this

theorem wsplit_joinSpace :
    ∀ parts : List (List Char), (∀ w ∈ parts, w ≠ []) →
      (∀ w ∈ parts, ∀ c ∈ w, c.isWhitespace = false) →
      wsplit (joinSpace parts) = parts := by
  intro parts
  induction parts with
  | nil => intro _ _; rfl
  | cons w ws ih =>
    intro h1 h2
    cases ws with
    | nil =>
      show wsplit w = [w]
      unfold wsplit
      rw [splitP_no_sep _ w (by simpa using h2 w (by simp))]
      simp [h1 w (by simp)]
    | cons x ws' =>
      show wsplit (w ++ ' ' :: joinSpace (x :: ws')) = w :: x :: ws'
      have hw1 : w ≠ [] := h1 w (by simp)
      have hrec := ih (fun u hu => h1 u (List.mem_cons_of_mem w hu))
        (fun u hu => h2 u (List.mem_cons_of_mem w hu))
      unfold wsplit at hrec ⊢
      rw [splitP_append_sep _ ' ' (by decide) w _
        (by simpa using h2 w (by simp))]
      rw [List.filter_cons_of_pos (by simpa using hw1), hrec]

theorem joinSpace_six (p0 p1 p2 p3 p4 v : List Char) (vs : List (List Char)) :
    joinSpace [p0, p1, p2, p3, p4, joinSpace (v :: vs)]
      = joinSpace (p0 :: p1 :: p2 :: p3 :: p4 :: v :: vs) := by
  cases vs with
  | nil => rfl
  | cons u us => rfl

/-! ### The claims -/

/-- C1: for every domain `D` and stepped expression whose base (`*` or a
range) expands against `D` to an empty sequence, expansion with a positive
step returns the empty sequence — it neither errors nor crashes, because
the relative-origin filter is evaluated lazily over an empty candidate
list. -/
theorem stepped_empty_base_total (s base : List Char) (k : Nat) (D : List Int)
    (hm : matchStepped s = some (base, k)) (hk : 1 ≤ k)
    (hbase : expand_expression base D = Except.ok []) :
    expand_expression s D = Except.ok [] := by
  have hs := matchStepped_ne_star hm
  have hr := matchStepped_matchRange_none hm
  have hl := matchStepped_isList_false hm
  have hbn := matchStepped_base_none hm
  unfold expand_expression
  rw [expandAux_stepped 0 s base D k hs hr hl hm, if_neg (by omega)]
  have h0 : expandAux 0 base D = Except.ok [] := by
    rw [expandAux_fuel_eq 0 1 base D hbn]
    exact hbase
  rw [h0]
  rfl

/-- C1 witness: `expand("50-55/2", [0..23])` returns the empty sequence. -/
theorem stepped_empty_base_total_witness :
    expand_expression "50-55/2".data hourDomain = Except.ok [] :=
  stepped_empty_base_total "50-55/2".data "50-55".data 2 hourDomain (by decide)
    (by decide) (by decide)

/-- C2 counterexample: a bare out-of-domain integer fails with the LIST
rule's error (`noValidValues`, from `app.py` line 135), not the
single-value rule's `valueNotInDomain` (line 154): the list regex
`^\d{1,2}(?:,\d{1,2})*$` also matches a bare integer and is tried first. -/
theorem bare_value_error_kind_cex :
    expand_expression "99".data minuteDomain
        = Except.error (CronError.noValidValues [99]) ∧
      CronError.noValidValues [99] ≠ CronError.valueNotInDomain 99 :=
  ⟨by decide, by decide⟩

/-- C2 amended: for a bare 1–2 digit integer `v`, expansion returns `[v]`
when `v` is a domain member, and fails with the List rule's
`noValidValues [v]` (not `valueNotInDomain`) otherwise, because the list
pattern subsumes bare integers and has higher precedence; the single-value
rule at `app.py` line 149 is unreachable. -/
theorem bare_value_list_error (s : List Char) (D : List Int)
    (hd : digits12 s = true) :
    ((parseNatDigits s : Int) ∈ D →
      expand_expression s D = Except.ok [(parseNatDigits s : Int)]) ∧
    ((parseNatDigits s : Int) ∉ D →
      expand_expression s D
        = Except.error (CronError.noValidValues [(parseNatDigits s : Int)])) := by
  have hs : s ≠ ['*'] := digits12_ne_star hd
  have hr : matchRange s = none := digits12_matchRange_none hd
  have hnc : ',' ∉ s := digits12_no_comma hd
  have hl : isListExpr s = true := by rw [isListExpr_no_comma hnc]; exact hd
  have hvals := parseListVals_no_comma hnc
  constructor
  · intro hv
    unfold expand_expression
    rw [expandAux_list 1 s D hs hr hl, hvals]
    have hf1 : List.filter (fun x => decide (x ∈ D))
        [(parseNatDigits s : Int)] = [(parseNatDigits s : Int)] := by simp [hv]
    rw [hf1, if_neg (by simp)]
  · intro hv
    unfold expand_expression
    rw [expandAux_list 1 s D hs hr hl, hvals]
    have hf1 : List.filter (fun x => decide (x ∈ D))
        [(parseNatDigits s : Int)] = [] := by simp [hv]
    rw [hf1, if_pos rfl]

/-- C2 amended witness: `expand("7", [1,3,5,7,9]) = [7]`. -/
theorem bare_value_list_error_witness :
    expand_expression "7".data [1, 3, 5, 7, 9] = Except.ok [7] := by
  have h := (bare_value_list_error "7".data [1, 3, 5, 7, 9] (by decide)).1
    (by decide)
  rw [h]
  decide

/-- C3 counterexample: `expand("3,3", [1..5])` succeeds with `[3, 3]`,
which contains a duplicate, so a successful expansion need not be a
duplicate-free subsequence of the domain. -/
theorem list_dup_cex :
    expand_expression "3,3".data [1, 2, 3, 4, 5] = Except.ok [3, 3] ∧
      ¬ ([3, 3] : List Int).Nodup :=
  ⟨by decide, by decide⟩

/-- C3 amended: for every duplicate-free domain the invariant holds for
every succeeding expression except list forms — equivalently, for every
succeeding expression not containing a comma the result is a duplicate-free
subsequence of the domain in the domain's order.  (List forms keep the
list's own order and its duplicates, as the counterexample shows.) -/
theorem expand_nodup_sublist (s : List Char) (D r : List Int)
    (hc : ',' ∉ s) (hD : D.Nodup)
    (h : expand_expression s D = Except.ok r) :
    r.Sublist D ∧ r.Nodup := by
  have hsub := expandAux_sublist 1 s D r hc h
  exact ⟨hsub, List.Nodup.sublist hsub hD⟩

/-- C3 amended witness: `expand("*/2", [1..9]) = [1,3,5,7,9]` is a
duplicate-free sublist of the domain. -/
theorem expand_nodup_sublist_witness :
    List.Sublist ([1, 3, 5, 7, 9] : List Int) [1, 2, 3, 4, 5, 6, 7, 8, 9] ∧
      ([1, 3, 5, 7, 9] : List Int).Nodup :=
  expand_nodup_sublist "*/2".data [1, 2, 3, 4, 5, 6, 7, 8, 9] [1, 3, 5, 7, 9]
    (by decide) (by decide) (by decide)

/-- C4: a stepped expression fails with `invalidInterval` when the step is
zero (the only way the 1–2 digit step can be `≤ 0`), and otherwise, when
the base expands to a non-empty candidate sequence `C`, returns exactly
the elements `x` of `C` with `(x - C[0]) mod step = 0`, in `C`'s order. -/
theorem stepped_expansion_correct (s base : List Char) (k : Nat) (D : List Int)
    (hm : matchStepped s = some (base, k)) :
    (k = 0 → expand_expression s D = Except.error (CronError.invalidInterval s)) ∧
    (∀ C, 1 ≤ k → expand_expression base D = Except.ok C → C ≠ [] →
      expand_expression s D =
        Except.ok (C.filter (fun x => decide ((x - C.headI) % (k : Int) = 0)))) := by
  have hs := matchStepped_ne_star hm
  have hr := matchStepped_matchRange_none hm
  have hl := matchStepped_isList_false hm
  have hbn := matchStepped_base_none hm
  constructor
  · intro hk
    unfold expand_expression
    rw [expandAux_stepped 0 s base D k hs hr hl hm, if_pos hk]
  · intro C hk hC hCne
    unfold expand_expression
    rw [expandAux_stepped 0 s base D k hs hr hl hm, if_neg (by omega)]
    have h0 : expandAux 0 base D = Except.ok C := by
      rw [expandAux_fuel_eq 0 1 base D hbn]
      exact hC
    rw [h0]
    rcases C with _ | ⟨c0, rest⟩
    · exact absurd rfl hCne
    · rfl

/-- C4 witness: `expand("2-8/2", [1..9]) = [2,4,6,8]` — steps measured
from the base's first element 2, not from 0. -/
theorem stepped_expansion_correct_witness :
    expand_expression "2-8/2".data [1, 2, 3, 4, 5, 6, 7, 8, 9]
      = Except.ok [2, 4, 6, 8] := by
  have h := (stepped_expansion_correct "2-8/2".data "2-8".data 2
      [1, 2, 3, 4, 5, 6, 7, 8, 9] (by decide)).2
    [2, 3, 4, 5, 6, 7, 8] (by decide) (by decide) (by decide)
  rw [h]
  decide

/-- C5: a range expression with `a ≤ b` returns all domain members in
`[a, b]` in domain order — the empty sequence, not an error, when no
member falls in the range — and fails with `invalidRange` when `a > b`. -/
theorem range_expansion_correct (s : List Char) (a b : Int) (D : List Int)
    (hm : matchRange s = some (a, b)) :
    (a ≤ b → expand_expression s D
        = Except.ok (D.filter (fun x => decide (a ≤ x ∧ x ≤ b)))) ∧
    (a > b → expand_expression s D = Except.error (CronError.invalidRange s)) ∧
    (a ≤ b → (∀ x ∈ D, ¬(a ≤ x ∧ x ≤ b)) →
      expand_expression s D = Except.ok []) := by
  have hs : s ≠ ['*'] := matchRange_ne_star hm
  refine ⟨?_, ?_, ?_⟩
  · intro hab
    unfold expand_expression
    rw [expandAux_range 1 s D a b hs hm, if_neg (not_lt.mpr hab)]
  · intro hab
    unfold expand_expression
    rw [expandAux_range 1 s D a b hs hm, if_pos hab]
  · intro hab hnone
    unfold expand_expression
    rw [expandAux_range 1 s D a b hs hm, if_neg (not_lt.mpr hab)]
    have he : D.filter (fun x => decide (a ≤ x ∧ x ≤ b)) = [] :=
      List.filter_eq_nil_iff.mpr (fun x hx => by simpa using hnone x hx)
    rw [he]

/-- C5 witness: `expand("2-4", [1..5]) = [2,3,4]` and
`expand("5-2", [1..5])` fails with `invalidRange`. -/
theorem range_expansion_correct_witness :
    expand_expression "2-4".data [1, 2, 3, 4, 5] = Except.ok [2, 3, 4] ∧
      expand_expression "5-2".data [1, 2, 3, 4, 5]
        = Except.error (CronError.invalidRange "5-2".data) := by
  constructor
  · have h := (range_expansion_correct "2-4".data 2 4 [1, 2, 3, 4, 5]
      (by decide)).1 (by decide)
    rw [h]
    decide
  · exact (range_expansion_correct "5-2".data 5 2 [1, 2, 3, 4, 5]
      (by decide)).2.1 (by decide)

/-- C6: a list expression of at least two comma-separated 1–2 digit
integers returns the listed values that are domain members, in the list's
own order, and fails with `noValidValues` exactly when no listed value is
a domain member. -/
theorem list_expansion_correct (s : List Char) (D : List Int)
    (hl : isListExpr s = true)
    (_hmulti : 2 ≤ (splitP (fun c => c = ',') s).length) :
    ((∃ v ∈ parseListVals s, v ∈ D) →
      expand_expression s D
        = Except.ok ((parseListVals s).filter (fun x => decide (x ∈ D)))) ∧
    ((∀ v ∈ parseListVals s, v ∉ D) →
      expand_expression s D
        = Except.error (CronError.noValidValues (parseListVals s))) := by
  have hs := isListExpr_ne_star hl
  have hr := isListExpr_matchRange_none hl
  constructor
  · rintro ⟨v, hv, hvD⟩
    unfold expand_expression
    rw [expandAux_list 1 s D hs hr hl]
    have hne : (parseListVals s).filter (fun x => decide (x ∈ D)) ≠ [] := by
      intro he
      have := List.filter_eq_nil_iff.mp he v hv
      simp at this
      exact this hvD
    rw [if_neg hne]
  · intro hnone
    unfold expand_expression
    rw [expandAux_list 1 s D hs hr hl]
    have he : (parseListVals s).filter (fun x => decide (x ∈ D)) = [] :=
      List.filter_eq_nil_iff.mpr (fun v hv => by simpa using hnone v hv)
    rw [he, if_pos rfl]

/-- C6 witness: `expand("5,1,3", [1..9]) = [5,1,3]` — the list's order,
not the domain's. -/
theorem list_expansion_correct_witness :
    expand_expression "5,1,3".data [1, 2, 3, 4, 5, 6, 7, 8, 9]
      = Except.ok [5, 1, 3] := by
  have h := (list_expansion_correct "5,1,3".data [1, 2, 3, 4, 5, 6, 7, 8, 9]
    (by decide) (by decide)).1 (by decide)
  rw [h]
  decide

/-- C7: fewer than six whitespace-separated tokens fail with
`malformedExpression`; six or more succeed, storing tokens 1–5 verbatim
and the rest space-joined as the command — in particular a 6-token input's
command is exactly the 6th token. -/
theorem mkCronFields_spec (e : List Char) :
    ((wsplit e).length < 6 →
      mkCronFields e = Except.error CronError.malformedExpression) ∧
    (∀ p0 p1 p2 p3 p4 p5 rest,
      wsplit e = p0 :: p1 :: p2 :: p3 :: p4 :: p5 :: rest →
      mkCronFields e = Except.ok ⟨p0, p1, p2, p3, p4, joinSpace (p5 :: rest)⟩) ∧
    (∀ p0 p1 p2 p3 p4 p5,
      wsplit e = [p0, p1, p2, p3, p4, p5] →
      mkCronFields e = Except.ok ⟨p0, p1, p2, p3, p4, p5⟩) := by
  refine ⟨?_, ?_, ?_⟩
  · intro hlen
    unfold mkCronFields
    rcases hw : wsplit e with
      _ | ⟨p0, _ | ⟨p1, _ | ⟨p2, _ | ⟨p3, _ | ⟨p4, _ | ⟨p5, rest⟩⟩⟩⟩⟩⟩
    · rfl
    · rfl
    · rfl
    · rfl
    · rfl
    · rfl
    · rw [hw] at hlen
      simp only [List.length_cons] at hlen
      omega
  · intro p0 p1 p2 p3 p4 p5 rest hw
    unfold mkCronFields
    rw [hw]
  · intro p0 p1 p2 p3 p4 p5 hw
    unfold mkCronFields
    rw [hw]
    rfl

/-- C7 witness: `"0 0 1 1"` (4 tokens) is malformed; a 6-token input
stores the five fields and the 6th token as the command. -/
theorem mkCronFields_spec_witness :
    mkCronFields "0 0 1 1".data = Except.error CronError.malformedExpression ∧
      mkCronFields "0 0 1 1 1 /usr/bin/command".data
        = Except.ok ⟨"0".data, "0".data, "1".data, "1".data, "1".data,
            "/usr/bin/command".data⟩ :=
  ⟨(mkCronFields_spec "0 0 1 1".data).1 (by decide),
   (mkCronFields_spec "0 0 1 1 1 /usr/bin/command".data).2.2
     "0".data "0".data "1".data "1".data "1".data "/usr/bin/command".data
     (by decide)⟩

/-- C8: the five fields are expanded in the fixed order minute, hour,
day of month, month, day of week against the domains [0,59], [0,23],
[1,31], [1,12], [1,7], the error of the leftmost invalid field is the one
that surfaces, and no partial result is produced. -/
theorem leftmost_error_propagation (e : List Char) (f : CronFields)
    (hf : mkCronFields e = Except.ok f) :
    (∀ err, expand_expression f.rawMinute minuteDomain = Except.error err →
      mkCronExpression e = Except.error err) ∧
    (∀ mv err, expand_expression f.rawMinute minuteDomain = Except.ok mv →
      expand_expression f.rawHour hourDomain = Except.error err →
      mkCronExpression e = Except.error err) ∧
    (∀ mv hv err, expand_expression f.rawMinute minuteDomain = Except.ok mv →
      expand_expression f.rawHour hourDomain = Except.ok hv →
      expand_expression f.rawDayOfMonth dayOfMonthDomain = Except.error err →
      mkCronExpression e = Except.error err) ∧
    (∀ mv hv dmv err, expand_expression f.rawMinute minuteDomain = Except.ok mv →
      expand_expression f.rawHour hourDomain = Except.ok hv →
      expand_expression f.rawDayOfMonth dayOfMonthDomain = Except.ok dmv →
      expand_expression f.rawMonth monthDomain = Except.error err →
      mkCronExpression e = Except.error err) ∧
    (∀ mv hv dmv mov err,
      expand_expression f.rawMinute minuteDomain = Except.ok mv →
      expand_expression f.rawHour hourDomain = Except.ok hv →
      expand_expression f.rawDayOfMonth dayOfMonthDomain = Except.ok dmv →
      expand_expression f.rawMonth monthDomain = Except.ok mov →
      expand_expression f.rawDayOfWeek dayOfWeekDomain = Except.error err →
      mkCronExpression e = Except.error err) ∧
    (∀ mv hv dmv mov dwv,
      expand_expression f.rawMinute minuteDomain = Except.ok mv →
      expand_expression f.rawHour hourDomain = Except.ok hv →
      expand_expression f.rawDayOfMonth dayOfMonthDomain = Except.ok dmv →
      expand_expression f.rawMonth monthDomain = Except.ok mov →
      expand_expression f.rawDayOfWeek dayOfWeekDomain = Except.ok dwv →
      mkCronExpression e = Except.ok ⟨mv, hv, dmv, mov, dwv, f.command⟩) := by
  refine ⟨?_, ?_, ?_, ?_, ?_, ?_⟩
  · intro err h1
    simp only [mkCronExpression, hf, h1]
  · intro mv err h1 h2
    simp only [mkCronExpression, hf, h1, h2]
  · intro mv hv err h1 h2 h3
    simp only [mkCronExpression, hf, h1, h2, h3]
  · intro mv hv dmv err h1 h2 h3 h4
    simp only [mkCronExpression, hf, h1, h2, h3, h4]
  · intro mv hv dmv mov err h1 h2 h3 h4 h5
    simp only [mkCronExpression, hf, h1, h2, h3, h4, h5]
  · intro mv hv dmv mov dwv h1 h2 h3 h4 h5
    simp only [mkCronExpression, hf, h1, h2, h3, h4, h5]

/-- C8 witness: with both the minute field (`99`) and the hour field
(`5-2`) invalid, the minute field's error is the one that surfaces. -/
theorem leftmost_error_propagation_witness :
    mkCronExpression "99 5-2 1 1 1 cmd".data
      = Except.error (CronError.noValidValues [99]) :=
  (leftmost_error_propagation "99 5-2 1 1 1 cmd".data
      ⟨"99".data, "5-2".data, "1".data, "1".data, "1".data, "cmd".data⟩
      (by decide)).1
    (CronError.noValidValues [99]) (by decide)

/-- C9: every integer in a successfully expanded field is a member of the
domain the field was expanded against, whichever grammar rule produced
it. -/
theorem expand_mem_domain (s : List Char) (D r : List Int)
    (h : expand_expression s D = Except.ok r) : ∀ x ∈ r, x ∈ D :=
  expandAux_mem 1 s D r h

/-- C9 witness: 55, an element of `expand("*/5", [0..59])`, is a member
of the minute domain. -/
theorem expand_mem_domain_witness : (55 : Int) ∈ minuteDomain :=
  expand_mem_domain "*/5".data minuteDomain
    [0, 5, 10, 15, 20, 25, 30, 35, 40, 45, 50, 55] (by decide) 55 (by decide)

/-- C10: constructing the raw schedule and then expanding it (which
rebuilds a single-space-joined expression and re-parses it) gives exactly
the expanded schedule built directly from the original expression: each
field token is whitespace-free and the command's whitespace runs were
already normalized to single spaces at the first parse, so the
rebuild-and-reparse round trip is lossless. -/
theorem raw_expand_roundtrip (e : List Char) (f : CronFields)
    (hf : mkCronFields e = Except.ok f) :
    rawExpand f = mkCronExpression e := by
  unfold mkCronFields at hf
  rcases hw : wsplit e with
    _ | ⟨p0, _ | ⟨p1, _ | ⟨p2, _ | ⟨p3, _ | ⟨p4, _ | ⟨p5, rest⟩⟩⟩⟩⟩⟩
  · rw [hw] at hf; simp at hf
  · rw [hw] at hf; simp at hf
  · rw [hw] at hf; simp at hf
  · rw [hw] at hf; simp at hf
  · rw [hw] at hf; simp at hf
  · rw [hw] at hf; simp at hf
  · rw [hw] at hf
    injection hf with h1
    subst h1
    show mkCronExpression
        (joinSpace [p0, p1, p2, p3, p4, joinSpace (p5 :: rest)])
      = mkCronExpression e
    rw [joinSpace_six]
    have hparts : wsplit (joinSpace (p0 :: p1 :: p2 :: p3 :: p4 :: p5 :: rest))
        = p0 :: p1 :: p2 :: p3 :: p4 :: p5 :: rest := by
      apply wsplit_joinSpace
      · intro w hw2
        exact wsplit_mem_ne_nil (show w ∈ wsplit e by rw [hw]; exact hw2)
      · intro w hw2 c hc
        exact wsplit_mem_no_ws (show w ∈ wsplit e by rw [hw]; exact hw2) c hc
    have hf2 : mkCronFields (joinSpace (p0 :: p1 :: p2 :: p3 :: p4 :: p5 :: rest))
        = Except.ok ⟨p0, p1, p2, p3, p4, joinSpace (p5 :: rest)⟩ := by
      unfold mkCronFields
      rw [hparts]
    have hf1 : mkCronFields e
        = Except.ok ⟨p0, p1, p2, p3, p4, joinSpace (p5 :: rest)⟩ := by
      unfold mkCronFields
      rw [hw]
    unfold mkCronExpression
    rw [hf1, hf2]

/-- C10 witness: an input with repeated internal whitespace expands to the
same schedule through the raw round trip as directly. -/
theorem raw_expand_roundtrip_witness :
    rawExpand ⟨"0".data, "0".data, "1".data, "1".data, "1".data,
        "echo hi".data⟩
      = mkCronExpression "0  0 1 1 1  echo  hi".data :=
  raw_expand_roundtrip "0  0 1 1 1  echo  hi".data
    ⟨"0".data, "0".data, "1".data, "1".data, "1".data, "echo hi".data⟩
    (by decide)

example : expand_expression "*/2".data [1, 2, 3, 4, 5, 6, 7, 8, 9]
    = Except.ok [1, 3, 5, 7, 9] := by decide

example : mkCronExpression "0 0 1 1 1 /usr/bin/command".data
    = Except.ok ⟨[0], [0], [1], [1], [1], "/usr/bin/command".data⟩ := by decide

